import Mathlib

/-
  Verification development for the roots memory engine
  (src/rust/src/embeddings.rs, index.rs, memory.rs, cli/context.rs,
   cli/memory.rs).

  Modelling conventions:
  * Rust f32/f64 arithmetic is modelled over the real numbers.
  * The MD5 hash used by the lite embedder comes from the external md5
    crate; it is abstracted as a parameter hash : List Char -> Nat, so
    every theorem below holds for the actual MD5 function in particular.
  * Rust strings are modelled as Lean String / List Char; the Unicode
    case folding and whitespace classification of the Rust standard
    library are modelled by Char.toLower and Char.isWhitespace.
  * The bytes of a serialized f32 are modelled by the 32-bit bit pattern
    of the float (a natural number below 2^32) cut into little-endian
    bytes, exactly as f32::to_le_bytes / from_le_bytes act on the bit
    pattern.
-/

namespace Roots

/-! ## Lite embedder (src/rust/src/embeddings.rs, LiteEmbedder::embed) -/

/-- Sum of squares of a vector, the square of its Euclidean norm. -/
def sumSq (v : List ℝ) : ℝ := (v.map fun x => x * x).sum

/-- Euclidean norm, as computed by iter().map(|x| x*x).sum().sqrt(). -/
noncomputable def l2norm (v : List ℝ) : ℝ := Real.sqrt (sumSq v)

/-- Dot product, as computed by zip/map/sum in cosine_similarity. -/
def dotList (a b : List ℝ) : ℝ := (List.zipWith (· * ·) a b).sum

/-- Leading and trailing whitespace removal: str::trim. -/
def trimWs (l : List Char) : List Char :=
  ((l.dropWhile Char.isWhitespace).reverse.dropWhile Char.isWhitespace).reverse

/-- The text preprocessing of LiteEmbedder::embed:
    text.to_lowercase() followed by trim(). -/
def processText (s : String) : List Char :=
  trimWs (s.toList.map Char.toLower)

/-- All contiguous 3-character windows of a character list, in order:
    the loop for i in 0..chars.len().saturating_sub(2). -/
def trigrams : List Char → List (List Char)
  | a :: b :: c :: rest => [a, b, c] :: trigrams (b :: c :: rest)
  | _ => []

/-- Helper for whitespace splitting: accumulates the current token in
    reverse. -/
def splitWsGo : List Char → List Char → List (List Char)
  | [], acc => if acc.isEmpty then [] else [acc.reverse]
  | c :: rest, acc =>
    if c.isWhitespace then
      if acc.isEmpty then splitWsGo rest [] else acc.reverse :: splitWsGo rest []
    else splitWsGo rest (c :: acc)

/-- Whitespace-delimited tokens: str::split_whitespace (maximal runs of
    non-whitespace characters; empty tokens never occur). -/
def splitWhitespace (cs : List Char) : List (List Char) := splitWsGo cs []

/-- vector[idx] += w, with the out-of-range case unreachable in the
    source because idx is a residue modulo the vector length. -/
def bumpAt (v : List ℝ) (i : ℕ) (w : ℝ) : List ℝ := v.set i (v.getD i 0 + w)

/-- Apply a list of (index, weight) increments in order. -/
def applyBumps (ups : List (ℕ × ℝ)) (v : List ℝ) : List ℝ :=
  ups.foldl (fun acc u => bumpAt acc u.1 u.2) v

/-- The bucket increments performed by LiteEmbedder::embed: weight 1.0
    at (hash of each trigram) mod dim, then weight 2.0 at (hash of each
    whitespace token) mod dim. -/
def liteUpdates (hash : List Char → ℕ) (dim : ℕ) (cs : List Char) : List (ℕ × ℝ) :=
  (trigrams cs).map (fun g => (hash g % dim, 1)) ++
    (splitWhitespace cs).map (fun t => (hash t % dim, 2))

/-- The accumulated (unnormalized) vector of LiteEmbedder::embed. -/
def rawEmbed (hash : List Char → ℕ) (dim : ℕ) (text : String) : List ℝ :=
  applyBumps (liteUpdates hash dim (processText text)) (List.replicate dim 0)

/-- LiteEmbedder::embed: accumulate, then divide by the Euclidean norm
    when it is positive, else leave the vector unchanged. -/
noncomputable def liteEmbed (hash : List Char → ℕ) (dim : ℕ) (text : String) : List ℝ :=
  let v := rawEmbed hash dim text
  let n := l2norm v
  if 0 < n then v.map (fun x => x / n) else v

/-- The full result of LiteEmbedder::embed, which always ends in
    Ok(vector); the error type mirrors Result of Vec f32, String. -/
noncomputable def LiteEmbedder.embed (hash : List Char → ℕ) (dim : ℕ) (text : String) :
    Except String (List ℝ) :=
  Except.ok (liteEmbed hash dim text)

/-- cosine_similarity (src/rust/src/embeddings.rs): 0 on length
    mismatch, 0 when either norm is zero, else dot/(na*nb). -/
noncomputable def cosine_similarity (a b : List ℝ) : ℝ :=
  if a.length ≠ b.length then 0
  else if l2norm a = 0 ∨ l2norm b = 0 then 0
  else dotList a b / (l2norm a * l2norm b)

/-! ### Basic vector lemmas -/

lemma sumSq_nil : sumSq [] = 0 := rfl

lemma sumSq_cons (x : ℝ) (l : List ℝ) : sumSq (x :: l) = x * x + sumSq l := by
  simp [sumSq]

lemma sumSq_nonneg (v : List ℝ) : 0 ≤ sumSq v := by
  refine List.sum_nonneg ?_
  intro x hx
  obtain ⟨y, _, rfl⟩ := List.mem_map.1 hx
  exact mul_self_nonneg y

lemma sumSq_replicate_zero (d : ℕ) : sumSq (List.replicate d (0 : ℝ)) = 0 := by
  induction d with
  | zero => rfl
  | succ n ih => simp [List.replicate_succ, sumSq_cons, ih]

lemma sumSq_pos_of_mem {v : List ℝ} {x : ℝ} (hx : x ∈ v) (hpos : x ≠ 0) :
    0 < sumSq v := by
  have hxx : 0 < x * x := mul_self_pos.2 hpos
  have hmem : x * x ∈ v.map fun y => y * y := List.mem_map_of_mem _ hx
  have hle : x * x ≤ sumSq v := by
    refine List.single_le_sum ?_ _ hmem
    intro y hy
    obtain ⟨z, _, rfl⟩ := List.mem_map.1 hy
    exact mul_self_nonneg z
  exact lt_of_lt_of_le hxx hle

lemma l2norm_pos {v : List ℝ} (h : 0 < sumSq v) : 0 < l2norm v :=
  Real.sqrt_pos.2 h

lemma l2norm_mul_self {v : List ℝ} : l2norm v * l2norm v = sumSq v :=
  Real.mul_self_sqrt (sumSq_nonneg v)

lemma sumSq_map_div (v : List ℝ) (n : ℝ) :
    sumSq (v.map fun x => x / n) = sumSq v / (n * n) := by
  induction v with
  | nil => simp [sumSq]
  | cons a l ih =>
    simp only [List.map_cons, sumSq_cons, ih]
    rw [div_mul_div_comm, add_div]

lemma dotList_self (v : List ℝ) : dotList v v = sumSq v := by
  induction v with
  | nil => rfl
  | cons a l ih =>
    rw [dotList, List.zipWith_cons_cons, List.sum_cons, sumSq_cons, ← ih, dotList]

lemma length_bumpAt (v : List ℝ) (i : ℕ) (w : ℝ) :
    (bumpAt v i w).length = v.length := by
  simp [bumpAt]

lemma length_applyBumps (ups : List (ℕ × ℝ)) (v : List ℝ) :
    (applyBumps ups v).length = v.length := by
  induction ups generalizing v with
  | nil => rfl
  | cons u rest ih => simpa [applyBumps, length_bumpAt] using ih (bumpAt v u.1 u.2)

lemma getD_nonneg {v : List ℝ} (hv : ∀ x ∈ v, 0 ≤ x) (i : ℕ) : 0 ≤ v.getD i 0 := by
  rcases lt_or_ge i v.length with h | h
  · rw [List.getD_eq_getElem _ _ h]
    exact hv _ (List.getElem_mem h)
  · rw [List.getD_eq_default _ _ h]

lemma mem_bumpAt_nonneg {v : List ℝ} {w : ℝ} (hv : ∀ x ∈ v, 0 ≤ x) (hw : 0 ≤ w)
    (i : ℕ) : ∀ x ∈ bumpAt v i w, 0 ≤ x := by
  intro x hx
  rcases List.mem_or_eq_of_mem_set hx with h | rfl
  · exact hv x h
  · exact add_nonneg (getD_nonneg hv i) hw

lemma mem_applyBumps_nonneg {ups : List (ℕ × ℝ)} (hups : ∀ u ∈ ups, 0 ≤ u.2) :
    ∀ {v : List ℝ}, (∀ x ∈ v, 0 ≤ x) → ∀ x ∈ applyBumps ups v, 0 ≤ x := by
  induction ups with
  | nil => intro v hv; simpa [applyBumps] using hv
  | cons u rest ih =>
    intro v hv
    have h1 : ∀ x ∈ bumpAt v u.1 u.2, 0 ≤ x :=
      mem_bumpAt_nonneg hv (hups u (List.mem_cons_self _ _)) u.1
    have h2 : ∀ u' ∈ rest, 0 ≤ u'.2 := fun u' hu' => hups u' (List.mem_cons_of_mem _ hu')
    simpa [applyBumps] using ih h2 h1

lemma sum_set (v : List ℝ) (i : ℕ) (a : ℝ) (h : i < v.length) :
    (v.set i a).sum = v.sum - v.getD i 0 + a := by
  induction v generalizing i with
  | nil => simp at h
  | cons x l ih =>
    cases i with
    | zero => simp [List.set]; ring
    | succ n =>
      have hn : n < l.length := by simpa using h
      simp only [List.set, List.sum_cons, List.getD_cons_succ, ih n hn]
      ring

lemma sum_bumpAt (v : List ℝ) (i : ℕ) (w : ℝ) (h : i < v.length) :
    (bumpAt v i w).sum = v.sum + w := by
  rw [bumpAt, sum_set v i _ h]
  ring

lemma sum_applyBumps {ups : List (ℕ × ℝ)} {d : ℕ}
    (hups : ∀ u ∈ ups, u.1 < d) :
    ∀ {v : List ℝ}, v.length = d → (applyBumps ups v).sum = v.sum + (ups.map (·.2)).sum := by
  induction ups with
  | nil => intro v _; simp [applyBumps]
  | cons u rest ih =>
    intro v hv
    have hu : u.1 < v.length := hv ▸ hups u (List.mem_cons_self _ _)
    have hrest : ∀ u' ∈ rest, u'.1 < d := fun u' hu' => hups u' (List.mem_cons_of_mem _ hu')
    have hlen : (bumpAt v u.1 u.2).length = d := by rw [length_bumpAt]; exact hv
    calc (applyBumps (u :: rest) v).sum
        = (applyBumps rest (bumpAt v u.1 u.2)).sum := rfl
      _ = (bumpAt v u.1 u.2).sum + (rest.map (·.2)).sum := ih hrest hlen
      _ = v.sum + u.2 + (rest.map (·.2)).sum := by rw [sum_bumpAt v u.1 u.2 hu]
      _ = v.sum + ((u :: rest).map (·.2)).sum := by simp; ring

lemma exists_pos_of_sum_pos {v : List ℝ} (h : 0 < v.sum) : ∃ x ∈ v, x ≠ 0 := by
  by_contra hall
  push_neg at hall
  have : v.sum = 0 := by
    have : v = List.replicate v.length 0 := by
      apply List.eq_replicate_of_mem
      intro x hx; exact hall x hx
    rw [this, List.sum_replicate]
    simp
  linarith

/-! ### Facts about the lite embedder -/

lemma liteEmbed_eq (hash : List Char → ℕ) (dim : ℕ) (T : String) :
    liteEmbed hash dim T =
      if 0 < l2norm (rawEmbed hash dim T)
      then (rawEmbed hash dim T).map fun x => x / l2norm (rawEmbed hash dim T)
      else rawEmbed hash dim T := rfl

lemma rawEmbed_length (hash : List Char → ℕ) (dim : ℕ) (T : String) :
    (rawEmbed hash dim T).length = dim := by
  rw [rawEmbed, length_applyBumps, List.length_replicate]

lemma liteEmbed_length (hash : List Char → ℕ) (dim : ℕ) (T : String) :
    (liteEmbed hash dim T).length = dim := by
  rw [liteEmbed_eq]
  split_ifs <;> simp [rawEmbed_length]

lemma liteUpdates_weight (hash : List Char → ℕ) (dim : ℕ) (cs : List Char) :
    ∀ u ∈ liteUpdates hash dim cs, u.2 = 1 ∨ u.2 = 2 := by
  intro u hu
  rcases List.mem_append.1 hu with h | h
  · obtain ⟨g, _, rfl⟩ := List.mem_map.1 h; exact Or.inl rfl
  · obtain ⟨t, _, rfl⟩ := List.mem_map.1 h; exact Or.inr rfl

lemma liteUpdates_idx (hash : List Char → ℕ) {dim : ℕ} (hdim : 0 < dim) (cs : List Char) :
    ∀ u ∈ liteUpdates hash dim cs, u.1 < dim := by
  intro u hu
  rcases List.mem_append.1 hu with h | h
  · obtain ⟨g, _, rfl⟩ := List.mem_map.1 h; exact Nat.mod_lt _ hdim
  · obtain ⟨t, _, rfl⟩ := List.mem_map.1 h; exact Nat.mod_lt _ hdim

lemma liteUpdates_eq_nil_iff (hash : List Char → ℕ) (dim : ℕ) (cs : List Char) :
    liteUpdates hash dim cs = [] ↔ (trigrams cs = [] ∧ splitWhitespace cs = []) := by
  simp [liteUpdates]

lemma rawEmbed_nonneg (hash : List Char → ℕ) (dim : ℕ) (T : String) :
    ∀ x ∈ rawEmbed hash dim T, 0 ≤ x := by
  refine mem_applyBumps_nonneg ?_ ?_
  · intro u hu
    rcases liteUpdates_weight hash dim (processText T) u hu with h | h <;> rw [h] <;> norm_num
  · intro x hx
    rw [List.eq_of_mem_replicate hx]

lemma rawEmbed_sumSq_pos (hash : List Char → ℕ) {dim : ℕ} (hdim : 0 < dim) (T : String)
    (hne : liteUpdates hash dim (processText T) ≠ []) :
    0 < sumSq (rawEmbed hash dim T) := by
  have hsum : (rawEmbed hash dim T).sum =
      ((liteUpdates hash dim (processText T)).map (·.2)).sum := by
    have := sum_applyBumps (d := dim) (liteUpdates_idx hash hdim (processText T))
      (v := List.replicate dim (0 : ℝ)) (by simp)
    simpa [rawEmbed, List.sum_replicate] using this
  have hwpos : 0 < ((liteUpdates hash dim (processText T)).map (·.2)).sum := by
    refine List.sum_pos _ ?_ ?_
    · intro w hw
      obtain ⟨u, hu, rfl⟩ := List.mem_map.1 hw
      rcases liteUpdates_weight hash dim (processText T) u hu with h | h <;> rw [h] <;> norm_num
    · simpa using hne
  obtain ⟨x, hx, hx0⟩ := exists_pos_of_sum_pos (v := rawEmbed hash dim T) (by rw [hsum]; exact hwpos)
  exact sumSq_pos_of_mem hx hx0

/-- C1: For every input text T, the local hashing strategy lower-cases
    and trims T, adds weight 1.0 at bucket (hash of each contiguous
    3-character window mod 384) and weight 2.0 at bucket (hash of each
    whitespace-delimited token mod 384), then L2-normalizes.  The result
    always has length exactly 384 and L2 norm exactly 1, except that it
    is the all-zero vector iff the lower-cased trimmed text contains no
    3-character window and no whitespace-delimited token (the windows
    and tokens the algorithm enumerates).  Stated for every hash
    function, hence in particular for the MD5 hash the source uses. -/
theorem C1_lite_embed_spec (hash : List Char → ℕ) (T : String) :
    (liteEmbed hash 384 T).length = 384 ∧
    ((trigrams (processText T) = [] ∧ splitWhitespace (processText T) = []) ↔
      liteEmbed hash 384 T = List.replicate 384 (0 : ℝ)) ∧
    (¬(trigrams (processText T) = [] ∧ splitWhitespace (processText T) = []) →
      l2norm (liteEmbed hash 384 T) = 1) := by
  refine ⟨liteEmbed_length hash 384 T, ?_, ?_⟩
  all_goals by_cases hups : liteUpdates hash 384 (processText T) = []
  · -- no trigram and no token: the zero vector is left unchanged
    have hraw : rawEmbed hash 384 T = List.replicate 384 0 := by
      rw [rawEmbed, hups]; rfl
    have hnorm : l2norm (rawEmbed hash 384 T) = 0 := by
      rw [hraw, l2norm, sumSq_replicate_zero, Real.sqrt_zero]
    have hembed : liteEmbed hash 384 T = List.replicate 384 0 := by
      rw [liteEmbed_eq, hnorm, if_neg (lt_irrefl 0), hraw]
    exact iff_of_true ((liteUpdates_eq_nil_iff hash 384 (processText T)).1 hups) hembed
  · -- some window or token exists: the vector is normalized to norm 1
    have hpos : 0 < sumSq (rawEmbed hash 384 T) :=
      rawEmbed_sumSq_pos hash (by norm_num) T hups
    have hn : 0 < l2norm (rawEmbed hash 384 T) := l2norm_pos hpos
    have hembed : liteEmbed hash 384 T =
        (rawEmbed hash 384 T).map fun x => x / l2norm (rawEmbed hash 384 T) := by
      rw [liteEmbed_eq, if_pos hn]
    have hone : sumSq (liteEmbed hash 384 T) = 1 := by
      rw [hembed, sumSq_map_div, l2norm_mul_self]
      exact div_self (ne_of_gt hpos)
    refine iff_of_false (fun h => hups ((liteUpdates_eq_nil_iff hash 384 (processText T)).2 h)) ?_
    intro h
    have : sumSq (liteEmbed hash 384 T) = 0 := by rw [h, sumSq_replicate_zero]
    rw [hone] at this
    exact one_ne_zero this
  · intro h
    exact absurd ((liteUpdates_eq_nil_iff hash 384 (processText T)).1 hups) h
  · intro _
    have hpos : 0 < sumSq (rawEmbed hash 384 T) :=
      rawEmbed_sumSq_pos hash (by norm_num) T hups
    have hn : 0 < l2norm (rawEmbed hash 384 T) := l2norm_pos hpos
    have hembed : liteEmbed hash 384 T =
        (rawEmbed hash 384 T).map fun x => x / l2norm (rawEmbed hash 384 T) := by
      rw [liteEmbed_eq, if_pos hn]
    have hone : sumSq (liteEmbed hash 384 T) = 1 := by
      rw [hembed, sumSq_map_div, l2norm_mul_self]
      exact div_self (ne_of_gt hpos)
    rw [l2norm, hone, Real.sqrt_one]

/-- A concrete stand-in hash used only to instantiate the
    hash-parametric theorems at a computable point. -/
def hashLen : List Char → ℕ := List.length

theorem C1_witness :
    (liteEmbed hashLen 384 "hi").length = 384 ∧ l2norm (liteEmbed hashLen 384 "hi") = 1 :=
  ⟨(C1_lite_embed_spec hashLen "hi").1, (C1_lite_embed_spec hashLen "hi").2.2 (by decide)⟩

/-- C2: cosine_similarity returns 0 whenever the two vectors differ in
    length or either has zero norm (it is a total function, so it never
    fails), and for every vector v with a non-zero component,
    cosine_similarity v v = 1. -/
theorem C2_cosine_similarity_spec (a b v : List ℝ)
    (hab : a.length ≠ b.length ∨ l2norm a = 0 ∨ l2norm b = 0)
    (hv : ∃ x ∈ v, x ≠ 0) :
    cosine_similarity a b = 0 ∧ cosine_similarity v v = 1 := by
  constructor
  · unfold cosine_similarity
    rcases hab with h | h | h
    · rw [if_pos h]
    · by_cases hl : a.length ≠ b.length
      · rw [if_pos hl]
      · rw [if_neg hl, if_pos (Or.inl h)]
    · by_cases hl : a.length ≠ b.length
      · rw [if_pos hl]
      · rw [if_neg hl, if_pos (Or.inr h)]
  · obtain ⟨x, hx, hx0⟩ := hv
    have hpos : 0 < sumSq v := sumSq_pos_of_mem hx hx0
    have hn : 0 < l2norm v := l2norm_pos hpos
    unfold cosine_similarity
    rw [if_neg (by simp), if_neg (by push_neg; exact ⟨hn.ne', hn.ne'⟩),
      dotList_self, l2norm_mul_self]
    exact div_self (ne_of_gt hpos)

theorem C2_witness :
    cosine_similarity [(1 : ℝ)] [1, 0] = 0 ∧ cosine_similarity [(1 : ℝ)] [(1 : ℝ)] = 1 :=
  C2_cosine_similarity_spec [1] [1, 0] [1] (Or.inl (by simp)) ⟨1, by simp, one_ne_zero⟩

/-- C10: the local hashing strategy is infallible: for every hash
    function and every input string the source function ends in
    Ok(vector) and an error value is never produced; the returned
    vector always has the lite dimension 384. -/
theorem C10_lite_embed_infallible (hash : List Char → ℕ) (T : String) :
    (∀ e : String, LiteEmbedder.embed hash 384 T ≠ Except.error e) ∧
    ∃ v, LiteEmbedder.embed hash 384 T = Except.ok v ∧ v.length = 384 :=
  ⟨fun e h => by simp [LiteEmbedder.embed] at h,
   ⟨liteEmbed hash 384 T, rfl, liteEmbed_length hash 384 T⟩⟩

theorem C10_witness :
    ∃ v, LiteEmbedder.embed hashLen 384 "" = Except.ok v ∧ v.length = 384 :=
  (C10_lite_embed_infallible hashLen "").2

/-! ## Embedding serialization (src/rust/src/index.rs)

An f32 is identified with its 32-bit bit pattern, a natural number
below 2^32; to_le_bytes / from_le_bytes act on exactly that pattern. -/

/-- f32::to_le_bytes on the bit pattern: four little-endian bytes. -/
def toLeBytes (w : ℕ) : List ℕ :=
  [w % 256, w / 256 % 256, w / 65536 % 256, w / 16777216 % 256]

/-- MemoryStore::serialize_embedding: contiguous little-endian 32-bit
    values, no header. -/
def MemoryStore.serialize_embedding : List ℕ → List ℕ
  | [] => []
  | w :: rest => toLeBytes w ++ MemoryStore.serialize_embedding rest

/-- MemoryStore::deserialize_embedding: chunks_exact(4) over the blob,
    f32::from_le_bytes on each chunk; a trailing remainder of fewer
    than 4 bytes is dropped. -/
def MemoryStore.deserialize_embedding : List ℕ → List ℕ
  | b0 :: b1 :: b2 :: b3 :: rest =>
    (b0 + 256 * b1 + 65536 * b2 + 16777216 * b3) ::
      MemoryStore.deserialize_embedding rest
  | _ => []

lemma deserialize_serialize (v : List ℕ) (hv : ∀ x ∈ v, x < 4294967296) :
    MemoryStore.deserialize_embedding (MemoryStore.serialize_embedding v) = v := by
  induction v with
  | nil => rfl
  | cons w rest ih =>
    have hw : w < 4294967296 := hv w (List.mem_cons_self _ _)
    have hrest : ∀ x ∈ rest, x < 4294967296 := fun x hx => hv x (List.mem_cons_of_mem _ hx)
    show MemoryStore.deserialize_embedding
        (toLeBytes w ++ MemoryStore.serialize_embedding rest) = w :: rest
    rw [toLeBytes]
    show (w % 256 + 256 * (w / 256 % 256) + 65536 * (w / 65536 % 256)
        + 16777216 * (w / 16777216 % 256)) ::
        MemoryStore.deserialize_embedding (MemoryStore.serialize_embedding rest) = w :: rest
    rw [ih hrest]
    congr 1
    omega

lemma deserialize_length : ∀ b : List ℕ,
    (MemoryStore.deserialize_embedding b).length = b.length / 4
  | [] => rfl
  | [a] => by simp [MemoryStore.deserialize_embedding]
  | [a, b] => by simp [MemoryStore.deserialize_embedding]
  | [a, b, c] => by simp [MemoryStore.deserialize_embedding]
  | _ :: _ :: _ :: _ :: rest => by
    have ih := deserialize_length rest
    show (MemoryStore.deserialize_embedding rest).length + 1 = _
    rw [ih]
    simp only [List.length_cons]
    omega

/-- C9 counterexample: a stored blob of 5 bytes has byte length
    different from 1 x 4.  Yet it decodes to a vector of length exactly
    1, so against a query of dimension 1 the decoded vector's length
    does NOT differ from the query dimension, contradicting the claim
    that any blob whose byte length is not dimension x 4 decodes to a
    vector whose length differs from the query dimension. -/
theorem C9_counterexample :
    ([0, 0, 0, 0, 0] : List ℕ).length ≠ 1 * 4 ∧
    (MemoryStore.deserialize_embedding [0, 0, 0, 0, 0]).length = 1 := by
  decide

/-- C9 (amended): serialization packs contiguous little-endian 32-bit
    values with no header and deserialize (serialize v) = v for every
    f32 vector; deserialization is a total function on every byte
    string, decoding floor(len / 4) floats and silently dropping a
    trailing remainder of 1 to 3 bytes; consequently the decoded length
    differs from the query dimension exactly when floor(len / 4) does,
    and whenever the lengths differ the similarity function yields
    score 0 instead of failing. -/
theorem C9_serialization_spec (v : List ℕ) (hv : ∀ x ∈ v, x < 4294967296)
    (b : List ℕ) (d : ℕ) :
    MemoryStore.deserialize_embedding (MemoryStore.serialize_embedding v) = v ∧
    (MemoryStore.deserialize_embedding b).length = b.length / 4 ∧
    (b.length / 4 ≠ d → (MemoryStore.deserialize_embedding b).length ≠ d) ∧
    (∀ q w : List ℝ, q.length ≠ w.length → cosine_similarity q w = 0) := by
  refine ⟨deserialize_serialize v hv, deserialize_length b, ?_, ?_⟩
  · intro h
    rw [deserialize_length b]
    exact h
  · intro q w hqw
    unfold cosine_similarity
    rw [if_pos hqw]

theorem C9_witness :
    MemoryStore.deserialize_embedding
      (MemoryStore.serialize_embedding [1, 3000000000]) = [1, 3000000000] :=
  (C9_serialization_spec [1, 3000000000] (by decide) [] 0).1

/-! ## The persistent store (src/rust/src/index.rs, MemoryStore)

The SQLite database is modelled as explicit state: the memories table
in rowid order, the tags table in rowid order (primary key
(memory_id, tag), inserts with OR IGNORE), and the memories_fts
full-text index kept in sync by the three triggers of the schema.
Foreign-key enforcement is OFF: SQLite defaults PRAGMA foreign_keys
to 0 per connection and MemoryStore::open never turns it on, so the
ON DELETE CASCADE declared in the schema does not fire (deleting a
memory leaves its tag rows orphaned) and a tag insert referencing a
missing memory succeeds.
Timestamps are modelled as naturals supplied by the caller in place of
chrono::Utc::now. -/

/-- The Memory record of src/rust/src/types.rs (the embedding is not
    part of the record; confidence, an f64, is modelled as a rational
    so that round-trip statements are decidable). -/
structure Memory where
  id : ℕ
  content : String
  confidence : ℚ
  tags : List String
  created_at : ℕ
  updated_at : ℕ
  last_accessed_at : Option ℕ
  access_count : ℕ
  deriving DecidableEq

/-- One row of the memories table (the embedding column stores the
    serialized blob bytes). -/
structure MemRow where
  id : ℕ
  content : String
  confidence : ℚ
  embedding : List ℕ
  created_at : ℕ
  updated_at : ℕ
  last_accessed_at : Option ℕ
  access_count : ℕ
  deriving DecidableEq

/-- The database state: AUTOINCREMENT counter, memories table, tags
    table and the memories_fts index, each in rowid order. -/
structure StoreState where
  nextId : ℕ
  memories : List MemRow
  tagRows : List (ℕ × String)
  fts : List (ℕ × String)
  deriving DecidableEq

/-- A freshly created database (rowids start at 1). -/
def StoreState.empty : StoreState := ⟨1, [], [], []⟩

/-- INSERT OR IGNORE INTO tags (memory_id, tag): skipped exactly when
    the (memory_id, tag) primary key already exists.  With foreign keys
    unenforced, the insert succeeds even when no memory with this id
    exists. -/
def StoreState.insertTagRow (s : StoreState) (id : ℕ) (tag : String) : StoreState :=
  if (id, tag) ∉ s.tagRows then { s with tagRows := s.tagRows ++ [(id, tag)] }
  else s

/-- Unicode lower-casing of a string, modelled character-wise. -/
def lowerStr (s : String) : String := ⟨s.toList.map Char.toLower⟩

/-- The tag-insertion loop shared by add and update: every tag is
    lower-cased and inserted with OR IGNORE, in order. -/
def StoreState.insertTagsLower (s : StoreState) (id : ℕ) (ts : List String) : StoreState :=
  ts.foldl (fun st t => st.insertTagRow id (lowerStr t)) s

/-- MemoryStore::add: INSERT the row (created_at = updated_at = now,
    fts maintained by the AFTER INSERT trigger), then insert the
    lower-cased tags; returns the fresh id. -/
def StoreState.add (s : StoreState) (now : ℕ) (content : String) (confidence : ℚ)
    (embedding : List ℕ) (tags : List String) : ℕ × StoreState :=
  let id := s.nextId
  let row : MemRow :=
    ⟨id, content, confidence, MemoryStore.serialize_embedding embedding, now, now, none, 0⟩
  let s1 : StoreState := ⟨id + 1, s.memories ++ [row], s.tagRows, s.fts ++ [(id, content)]⟩
  (id, s1.insertTagsLower id tags)

/-- Byte order on UTF-8 strings (the memcmp ordering SQLite uses for
    TEXT), equivalently lexicographic order on code points. -/
def charsLe : List Char → List Char → Bool
  | [], _ => true
  | _ :: _, [] => false
  | a :: as, b :: bs =>
    if a.val < b.val then true
    else if b.val < a.val then false
    else charsLe as bs

/-- The ordering under which the (memory_id, tag) primary-key index
    stores the tag entries of one memory. -/
def tagLe (a b : String) : Prop := charsLe a.toList b.toList = true

instance : DecidableRel tagLe := fun a b => Bool.decEq (charsLe a.toList b.toList) true

/-- Ascending index order on a list of tags. -/
def sortTags (l : List String) : List String := l.insertionSort tagLe

/-- The tag values stored for one memory, in rowid (insertion) order:
    the raw contents of the tags table restricted to this memory. -/
def StoreState.tagRowsOf (s : StoreState) (id : ℕ) : List String :=
  (s.tagRows.filter fun r => r.1 = id).map (·.2)

/-- SELECT tag FROM tags WHERE memory_id = ? (get_tags): the query has
    no ORDER BY and runs on the (memory_id, tag) primary-key covering
    index, so the rows come back in ascending tag order. -/
def StoreState.tagsOf (s : StoreState) (id : ℕ) : List String :=
  sortTags (s.tagRowsOf id)

/-- Assemble the Memory record a row query returns (the row columns
    plus the get_tags helper). -/
def StoreState.rowToMemory (s : StoreState) (r : MemRow) : Memory :=
  ⟨r.id, r.content, r.confidence, s.tagsOf r.id, r.created_at, r.updated_at,
    r.last_accessed_at, r.access_count⟩

/-- MemoryStore::get: WHERE id = ?, first row or None. -/
def StoreState.get (s : StoreState) (id : ℕ) : Option Memory :=
  (s.memories.find? fun m => m.id = id).map s.rowToMemory

/-- ORDER BY updated_at DESC; a stable sort realizes the deterministic
    tie behaviour of keeping the underlying order. -/
def byUpdatedDesc (a b : MemRow) : Prop := b.updated_at ≤ a.updated_at

instance : DecidableRel byUpdatedDesc := fun a b => Nat.decLe b.updated_at a.updated_at

/-- MemoryStore::get_by_tag: exact match on the lower-cased tag via the
    tags join, most recently updated first, LIMIT ?. -/
def StoreState.get_by_tag (s : StoreState) (tag : String) (limit : ℕ) : List Memory :=
  ((((s.memories.filter fun m => (m.id, lowerStr tag) ∈ s.tagRows).insertionSort
      byUpdatedDesc).take limit).map s.rowToMemory)

/-- The AFTER UPDATE trigger on memories: replace the fts entry of the
    updated row (a no-op when no row with this id exists and hence no
    row was updated). -/
def StoreState.touchFts (s : StoreState) (id : ℕ) : StoreState :=
  match s.memories.find? fun m => m.id = id with
  | some m => { s with fts := (s.fts.filter fun e => e.1 ≠ id) ++ [(id, m.content)] }
  | none => s

/-- MemoryStore::update: optionally UPDATE confidence (refreshing
    updated_at), optionally DELETE all tag rows of the id and re-insert
    the lower-cased new tags (refreshing updated_at); always returns
    Ok(true), whether or not a row with this id exists. -/
def StoreState.update (s : StoreState) (now : ℕ) (id : ℕ)
    (confidence : Option ℚ) (tags : Option (List String)) : Bool × StoreState :=
  let s1 := match confidence with
    | some c =>
      StoreState.touchFts
        { s with memories := s.memories.map fun m =>
            if m.id = id then { m with confidence := c, updated_at := now } else m } id
    | none => s
  let s2 := match tags with
    | some ts =>
      let sDel := { s1 with tagRows := s1.tagRows.filter fun r => r.1 ≠ id }
      let sIns := sDel.insertTagsLower id ts
      StoreState.touchFts
        { sIns with memories := sIns.memories.map fun m =>
            if m.id = id then { m with updated_at := now } else m } id
    | none => s1
  (true, s2)

/-- MemoryStore::delete: DELETE FROM memories WHERE id = ?; the AFTER
    DELETE trigger removes the fts entry, but since foreign keys are
    unenforced the ON DELETE CASCADE declared in the schema does not
    fire and the tag rows of the deleted memory are left orphaned,
    contrary to the source comment next to this statement; returns
    whether the deleted count was positive. -/
def StoreState.delete (s : StoreState) (id : ℕ) : Bool × StoreState :=
  (decide (∃ m ∈ s.memories, m.id = id),
   { s with memories := s.memories.filter fun m => m.id ≠ id,
            fts := s.fts.filter fun e => e.1 ≠ id })

/-- Store well-formedness: every rowid already used is below the
    AUTOINCREMENT counter. -/
def StoreState.WF (s : StoreState) : Prop :=
  (∀ m ∈ s.memories, m.id < s.nextId) ∧ (∀ r ∈ s.tagRows, r.1 < s.nextId)

instance (s : StoreState) : Decidable s.WF :=
  inferInstanceAs (Decidable
    ((∀ m ∈ s.memories, m.id < s.nextId) ∧ (∀ r ∈ s.tagRows, r.1 < s.nextId)))

/-- Left fold that appends each element not yet present. -/
def dedupFrom (acc l : List String) : List String :=
  l.foldl (fun a t => if t ∈ a then a else a ++ [t]) acc

/-- First-occurrence deduplication. -/
def dedupFirst (l : List String) : List String := dedupFrom [] l

/-- Lower-case every tag, then deduplicate keeping first occurrences:
    the net effect of the tag-insertion loop on a fresh id. -/
def dedupLower (ts : List String) : List String := dedupFirst (ts.map lowerStr)

/-! ### Store lemmas -/

lemma dedupFrom_cons (acc : List String) (x : String) (l : List String) :
    dedupFrom acc (x :: l) = dedupFrom (if x ∈ acc then acc else acc ++ [x]) l := rfl

lemma mem_dedupFrom (l : List String) :
    ∀ acc a, a ∈ dedupFrom acc l ↔ a ∈ acc ∨ a ∈ l := by
  induction l with
  | nil => intro acc a; simp [dedupFrom]
  | cons x l ih =>
    intro acc a
    rw [dedupFrom_cons, ih]
    by_cases hx : x ∈ acc
    · rw [if_pos hx]
      simp only [List.mem_cons]
      constructor
      · rintro (h | h)
        · exact Or.inl h
        · exact Or.inr (Or.inr h)
      · rintro (h | rfl | h)
        · exact Or.inl h
        · exact Or.inl hx
        · exact Or.inr h
    · rw [if_neg hx]
      simp only [List.mem_append, List.mem_cons, List.mem_singleton]
      tauto

lemma mem_tagRowsOf_iff (s : StoreState) (id : ℕ) (tag : String) :
    (id, tag) ∈ s.tagRows ↔ tag ∈ s.tagRowsOf id := by
  unfold StoreState.tagRowsOf
  simp only [List.mem_map, List.mem_filter, decide_eq_true_eq]
  constructor
  · intro h
    exact ⟨(id, tag), ⟨h, rfl⟩, rfl⟩
  · rintro ⟨⟨a, b⟩, ⟨hmem, h1⟩, h2⟩
    simp only at h1 h2
    rw [← h1, ← h2]
    exact hmem

lemma insertTagRow_memories (s : StoreState) (id : ℕ) (t : String) :
    (s.insertTagRow id t).memories = s.memories := by
  unfold StoreState.insertTagRow
  split <;> rfl

lemma tagRowsOf_insertTagRow (s : StoreState) (id : ℕ) (t : String) :
    (s.insertTagRow id t).tagRowsOf id =
      if t ∈ s.tagRowsOf id then s.tagRowsOf id else s.tagRowsOf id ++ [t] := by
  unfold StoreState.insertTagRow
  by_cases hmem : t ∈ s.tagRowsOf id
  · have hc : ¬((id, t) ∉ s.tagRows) :=
      fun h => h ((mem_tagRowsOf_iff s id t).2 hmem)
    rw [if_neg hc, if_pos hmem]
  · have hc : (id, t) ∉ s.tagRows :=
      fun hco => hmem ((mem_tagRowsOf_iff s id t).1 hco)
    rw [if_pos hc, if_neg hmem]
    unfold StoreState.tagRowsOf
    simp [List.filter_append]

lemma insertTagsLower_memories (s : StoreState) (id : ℕ) (ts : List String) :
    (s.insertTagsLower id ts).memories = s.memories := by
  induction ts generalizing s with
  | nil => rfl
  | cons t ts ih =>
    calc (s.insertTagsLower id (t :: ts)).memories
        = ((s.insertTagRow id (lowerStr t)).insertTagsLower id ts).memories := rfl
      _ = (s.insertTagRow id (lowerStr t)).memories := ih _
      _ = s.memories := insertTagRow_memories s id (lowerStr t)

lemma tagRowsOf_insertTagsLower (s : StoreState) (id : ℕ) (ts : List String) :
    (s.insertTagsLower id ts).tagRowsOf id
      = dedupFrom (s.tagRowsOf id) (ts.map lowerStr) := by
  induction ts generalizing s with
  | nil => rfl
  | cons t ts ih =>
    calc (s.insertTagsLower id (t :: ts)).tagRowsOf id
        = ((s.insertTagRow id (lowerStr t)).insertTagsLower id ts).tagRowsOf id := rfl
      _ = dedupFrom ((s.insertTagRow id (lowerStr t)).tagRowsOf id) (ts.map lowerStr) :=
          ih _
      _ = dedupFrom (if lowerStr t ∈ s.tagRowsOf id then s.tagRowsOf id
            else s.tagRowsOf id ++ [lowerStr t]) (ts.map lowerStr) := by
          rw [tagRowsOf_insertTagRow s id (lowerStr t)]
      _ = dedupFrom (s.tagRowsOf id) ((t :: ts).map lowerStr) := by
          rw [List.map_cons, dedupFrom_cons]

lemma find?_map_id (l : List MemRow) (id : ℕ) (f : MemRow → MemRow)
    (hf : ∀ m, (f m).id = m.id) :
    ((l.map fun m => if m.id = id then f m else m).find? fun m => m.id = id) =
      (l.find? fun m => m.id = id).map fun m => if m.id = id then f m else m := by
  induction l with
  | nil => rfl
  | cons m l ih =>
    by_cases h : m.id = id
    · have h1 : (if m.id = id then f m else m).id = id := by rw [if_pos h, hf]; exact h
      rw [List.map_cons, List.find?_cons_of_pos _ (by simp [h1]),
        List.find?_cons_of_pos _ (by simp [h])]
      rfl
    · have h1 : (if m.id = id then f m else m).id ≠ id := by rw [if_neg h]; exact h
      rw [List.map_cons, List.find?_cons_of_neg _ (by simp [h1]),
        List.find?_cons_of_neg _ (by simp [h])]
      exact ih

lemma touchFts_memories (s : StoreState) (id : ℕ) :
    (s.touchFts id).memories = s.memories := by
  unfold StoreState.touchFts
  split <;> rfl

lemma touchFts_tagRows (s : StoreState) (id : ℕ) :
    (s.touchFts id).tagRows = s.tagRows := by
  unfold StoreState.touchFts
  split <;> rfl

lemma tagRowsOf_touchFts (s : StoreState) (id id2 : ℕ) :
    (s.touchFts id2).tagRowsOf id = s.tagRowsOf id := by
  unfold StoreState.tagRowsOf
  rw [touchFts_tagRows]

lemma tagRowsOf_delRows (s : StoreState) (id : ℕ) :
    StoreState.tagRowsOf { s with tagRows := s.tagRows.filter fun r => r.1 ≠ id } id = [] := by
  unfold StoreState.tagRowsOf
  have h : ((s.tagRows.filter fun r => r.1 ≠ id).filter fun r => r.1 = id) = [] := by
    rw [List.filter_eq_nil_iff]
    intro a ha
    have := (List.mem_filter.1 ha).2
    simp only [decide_eq_true_eq] at this ⊢
    simpa using this
  simp only [h, List.map_nil]

lemma get_updated_now (s s' : StoreState) (id now : ℕ) (g : MemRow → MemRow)
    (hg : ∀ m, (g m).id = m.id) (hu : ∀ m, (g m).updated_at = now)
    (hex : ∃ m ∈ s.memories, m.id = id)
    (hm : s'.memories = s.memories.map fun m => if m.id = id then g m else m) :
    (s'.get id).map Memory.updated_at = some now := by
  obtain ⟨m0, hm0, hid0⟩ := hex
  have hsome : ∃ m1, (s.memories.find? fun m => m.id = id) = some m1 := by
    cases hfind : s.memories.find? fun m => m.id = id with
    | some m1 => exact ⟨m1, rfl⟩
    | none =>
      exfalso
      have := List.find?_eq_none.1 hfind m0 hm0
      simp [hid0] at this
  obtain ⟨m1, hm1⟩ := hsome
  have hp1 : m1.id = id := by
    have := List.find?_some hm1
    simpa using this
  unfold StoreState.get
  rw [hm, find?_map_id s.memories id g hg, hm1]
  simp [StoreState.rowToMemory, if_pos hp1, hu]

/-- C3 counterexample: on the empty store no memory with id 1 exists,
    yet update(1, confidence = 1/2, no tags) still returns true, so
    update does not return whether the target existed. -/
theorem C3_counterexample :
    (StoreState.empty.update 5 1 (some (1/2)) none).1 = true ∧
    StoreState.empty.get 1 = none := by decide

/-- C3 (amended): update fully replaces the tag set when tags are
    provided (lower-cased, deduplicated, not merged), refreshes
    updated_at whenever either field is provided, and always returns
    true - also when no memory with that id exists, so the return value
    does not indicate existence. -/
theorem C3_update_spec (s : StoreState) (now id : ℕ)
    (conf : Option ℚ) (tags : Option (List String))
    (hex : ∃ m ∈ s.memories, m.id = id) :
    (s.update now id conf tags).1 = true ∧
    (∀ s₂ : StoreState, ∀ now₂ id₂ : ℕ, ∀ c₂ : Option ℚ, ∀ t₂ : Option (List String),
      (s₂.update now₂ id₂ c₂ t₂).1 = true) ∧
    (∀ ts, tags = some ts →
      (s.update now id conf tags).2.tagsOf id = sortTags (dedupLower ts)) ∧
    ((conf.isSome = true ∨ tags.isSome = true) →
      ((s.update now id conf tags).2.get id).map Memory.updated_at = some now) := by
  have key : ∀ s1 : StoreState, ∀ ts : List String,
      (StoreState.touchFts
        { (StoreState.insertTagsLower
            { s1 with tagRows := s1.tagRows.filter fun r => r.1 ≠ id } id ts) with
          memories := (StoreState.insertTagsLower
            { s1 with tagRows := s1.tagRows.filter fun r => r.1 ≠ id } id ts).memories.map
              fun m => if m.id = id then { m with updated_at := now } else m } id).tagsOf id
        = sortTags (dedupLower ts) := by
    intro s1 ts
    show sortTags ((StoreState.touchFts _ id).tagRowsOf id) = sortTags (dedupLower ts)
    refine congrArg sortTags ?_
    rw [tagRowsOf_touchFts]
    show (StoreState.insertTagsLower
        { s1 with tagRows := s1.tagRows.filter fun r => r.1 ≠ id } id ts).tagRowsOf id
      = dedupLower ts
    rw [tagRowsOf_insertTagsLower, tagRowsOf_delRows]
    rfl
  refine ⟨rfl, fun _ _ _ _ _ => rfl, ?_, ?_⟩
  · rintro ts rfl
    rcases conf with _ | c
    · exact key s ts
    · exact key _ ts
  · intro hsome
    have hmemIns : ∀ x : StoreState, ∀ ts : List String,
        (StoreState.touchFts
          { (StoreState.insertTagsLower
              { x with tagRows := x.tagRows.filter fun r => r.1 ≠ id } id ts) with
            memories := (StoreState.insertTagsLower
              { x with tagRows := x.tagRows.filter fun r => r.1 ≠ id } id ts).memories.map
                fun m => if m.id = id then { m with updated_at := now } else m } id).memories
          = x.memories.map fun m => if m.id = id then { m with updated_at := now } else m := by
      intro x ts
      rw [touchFts_memories]
      dsimp only
      rw [insertTagsLower_memories]
    rcases conf with _ | c <;> rcases tags with _ | ts
    · simp at hsome
    · -- tags only: updated_at set by the tag branch
      exact get_updated_now s _ id now (fun m => { m with updated_at := now })
        (fun m => rfl) (fun m => rfl) hex (hmemIns s ts)
    · -- confidence only
      refine get_updated_now s _ id now
        (fun m => { m with confidence := c, updated_at := now })
        (fun m => rfl) (fun m => rfl) hex ?_
      show (StoreState.touchFts { s with memories := s.memories.map fun m =>
          if m.id = id then { m with confidence := c, updated_at := now } else m } id).memories
        = _
      rw [touchFts_memories]
    · -- both: the two row updates compose
      have h2 := hmemIns (StoreState.touchFts { s with memories := s.memories.map fun m =>
        if m.id = id then { m with confidence := c, updated_at := now } else m } id) ts
      have hx : (StoreState.touchFts { s with memories := s.memories.map fun m =>
          if m.id = id then { m with confidence := c, updated_at := now } else m } id).memories
          = s.memories.map fun m =>
            if m.id = id then { m with confidence := c, updated_at := now } else m := by
        rw [touchFts_memories]
      have h3 : ((fun m => if m.id = id then { m with updated_at := now } else m) ∘
          fun m : MemRow =>
            if m.id = id then { m with confidence := c, updated_at := now } else m)
          = fun m => if m.id = id then { m with confidence := c, updated_at := now } else m := by
        funext m
        by_cases h : m.id = id
        · simp only [Function.comp_apply, if_pos h]
        · simp only [Function.comp_apply, if_neg h]
      have hchain : ((StoreState.touchFts { s with memories := s.memories.map fun m =>
          if m.id = id then { m with confidence := c, updated_at := now } else m }
            id).memories.map fun m =>
              if m.id = id then { m with updated_at := now } else m)
          = s.memories.map fun m =>
            if m.id = id then { m with confidence := c, updated_at := now } else m := by
        rw [hx, List.map_map, h3]
      exact get_updated_now s _ id now
        (fun m => { m with confidence := c, updated_at := now })
        (fun m => rfl) (fun m => rfl) hex (h2.trans hchain)

/-- Concrete one-memory store used by witnesses. -/
def storeOne : StoreState := (StoreState.empty.add 0 "c" (1/2) [] []).2

theorem C3_witness :
    (storeOne.update 7 1 (some (3/4)) (some ["A", "a"])).1 = true ∧
    (storeOne.update 7 1 (some (3/4)) (some ["A", "a"])).2.tagsOf 1
      = sortTags (dedupLower ["A", "a"]) := by
  obtain ⟨h1, _, h3, _⟩ :=
    C3_update_spec storeOne 7 1 (some (3/4)) (some ["A", "a"]) (by decide)
  exact ⟨h1, h3 _ rfl⟩

/-- Concrete store with one memory (id 1) carrying one tag. -/
def storeTagged : StoreState := (StoreState.empty.add 3 "hello" (1/2) [0] ["t"]).2

/-- C5: the claim states the schema's declared intent (ON DELETE
    CASCADE, and the source comments that tags are deleted via the
    cascade), but the connection never enables PRAGMA foreign_keys
    (SQLite defaults it to off and MemoryStore::open sets nothing), so
    the cascade does not fire.  Evaluated at the failing input: after
    delete(1) on a store whose only memory id 1 carries the tag "t",
    delete returns true, get(1) is none and the fts entry is gone, yet
    the tag row (1, "t") survives, orphaned - the claim's "removes all
    of its tag rows" is false of the program. -/
theorem C5_delete_bug :
    (storeTagged.delete 1).1 = true ∧
    (storeTagged.delete 1).2.get 1 = none ∧
    (storeTagged.delete 1).2.fts = [] ∧
    (1, "t") ∈ (storeTagged.delete 1).2.tagRows := by
  decide

lemma tagRowsOf_of_fresh (s : StoreState) (id : ℕ) (h : ∀ r ∈ s.tagRows, r.1 ≠ id) :
    s.tagRowsOf id = [] := by
  unfold StoreState.tagRowsOf
  have hf : (s.tagRows.filter fun r => r.1 = id) = [] := by
    rw [List.filter_eq_nil_iff]
    intro a ha
    simp only [decide_eq_true_eq]
    exact h a ha
  rw [hf]
  rfl

lemma get_insertTagsLower_fresh (s1 : StoreState) (row : MemRow) (mems0 : List MemRow)
    (idN : ℕ) (tags : List String)
    (hmem : s1.memories = mems0 ++ [row])
    (hrowid : row.id = idN)
    (hold : ∀ m ∈ mems0, m.id ≠ idN)
    (htag0 : s1.tagRowsOf idN = []) :
    (s1.insertTagsLower idN tags).get idN =
      some ⟨idN, row.content, row.confidence, sortTags (dedupLower tags), row.created_at,
        row.updated_at, row.last_accessed_at, row.access_count⟩ := by
  have hfind : ((s1.insertTagsLower idN tags).memories.find? fun m => m.id = idN)
      = some row := by
    rw [insertTagsLower_memories, hmem, List.find?_append]
    have hnone : (mems0.find? fun m => m.id = idN) = none := by
      rw [List.find?_eq_none]
      intro x hx
      simp only [decide_eq_true_eq]
      exact hold x hx
    rw [hnone, Option.none_or, List.find?_cons_of_pos _ (by simp [hrowid])]
  have htagsX : (s1.insertTagsLower idN tags).tagsOf row.id = sortTags (dedupLower tags) := by
    show sortTags ((s1.insertTagsLower idN tags).tagRowsOf row.id) = _
    refine congrArg sortTags ?_
    rw [hrowid, tagRowsOf_insertTagsLower, htag0]
    rfl
  unfold StoreState.get
  rw [hfind]
  unfold StoreState.rowToMemory
  rw [Option.map_some', htagsX, hrowid]

lemma mem_get_by_tag (s2 : StoreState) (row : MemRow) (q : String) (limit : ℕ)
    (hrowmem : row ∈ s2.memories)
    (htag : (row.id, lowerStr q) ∈ s2.tagRows)
    (hlim : s2.memories.length ≤ limit) :
    ∃ mm ∈ s2.get_by_tag q limit, mm.id = row.id := by
  have hf : row ∈ s2.memories.filter fun m => (m.id, lowerStr q) ∈ s2.tagRows :=
    List.mem_filter.2 ⟨hrowmem, by simp [htag]⟩
  have hsorted : row ∈ (s2.memories.filter fun m =>
      (m.id, lowerStr q) ∈ s2.tagRows).insertionSort byUpdatedDesc :=
    ((List.perm_insertionSort byUpdatedDesc _).mem_iff).2 hf
  have hlen : ((s2.memories.filter fun m =>
      (m.id, lowerStr q) ∈ s2.tagRows).insertionSort byUpdatedDesc).length ≤ limit := by
    rw [(List.perm_insertionSort byUpdatedDesc _).length_eq]
    exact le_trans (List.length_filter_le _ _) hlim
  refine ⟨s2.rowToMemory row, ?_, rfl⟩
  unfold StoreState.get_by_tag
  rw [List.take_of_length_le hlen]
  exact List.mem_map_of_mem _ hsorted

/-- C7 counterexample: add followed by get does not round-trip the tag
    list exactly, in two ways.  A memory added with the tag "Test"
    comes back with the lower-cased tag "test"; and a memory added with
    the tags ["b", "a"] comes back with ["a", "b"] - get_tags has no
    ORDER BY and reads the (memory_id, tag) primary-key covering index,
    which returns the tags in ascending order, not insertion order. -/
theorem C7_counterexample :
    ((StoreState.empty.add 0 "c" (1/2) [] ["Test"]).2.get 1).map Memory.tags
      ≠ some ["Test"] ∧
    ((StoreState.empty.add 0 "c" (1/2) [] ["b", "a"]).2.get 1).map Memory.tags
      = some ["a", "b"] := by
  refine ⟨by decide, by decide⟩

/-- C7 (amended): add followed by get on the returned id round-trips
    content and confidence exactly; the tag list comes back lower-cased
    and deduplicated, in the ascending tag order of the tags
    primary-key index rather than input order; tag membership is
    case-fold invariant in both directions: for every tag t supplied to
    add and every query string q with the same lower casing (for
    instance "Test" stored and "test" queried, or the reverse),
    get_by_tag returns the new memory whenever the limit admits it. -/
theorem C7_add_get_spec (s : StoreState) (now : ℕ) (content : String) (conf : ℚ)
    (emb : List ℕ) (tags : List String) (hWF : s.WF) :
    (s.add now content conf emb tags).1 = s.nextId ∧
    (s.add now content conf emb tags).2.get s.nextId =
      some ⟨s.nextId, content, conf, sortTags (dedupLower tags), now, now, none, 0⟩ ∧
    (∀ t ∈ tags, ∀ q : String, lowerStr q = lowerStr t → ∀ limit : ℕ,
      (s.add now content conf emb tags).2.memories.length ≤ limit →
      ∃ mm ∈ (s.add now content conf emb tags).2.get_by_tag q limit,
        mm.id = s.nextId) := by
  have hfresh : StoreState.tagRowsOf
      ⟨s.nextId + 1,
       s.memories ++ [⟨s.nextId, content, conf, MemoryStore.serialize_embedding emb,
         now, now, none, 0⟩],
       s.tagRows, s.fts ++ [(s.nextId, content)]⟩ s.nextId = [] := by
    refine tagRowsOf_of_fresh _ s.nextId ?_
    intro r hr
    exact (hWF.2 r hr).ne
  refine ⟨rfl, ?_, ?_⟩
  · exact get_insertTagsLower_fresh
      ⟨s.nextId + 1,
       s.memories ++ [⟨s.nextId, content, conf, MemoryStore.serialize_embedding emb,
         now, now, none, 0⟩],
       s.tagRows, s.fts ++ [(s.nextId, content)]⟩
      ⟨s.nextId, content, conf, MemoryStore.serialize_embedding emb, now, now, none, 0⟩
      s.memories s.nextId tags rfl rfl (fun m hm => (hWF.1 m hm).ne) hfresh
  · intro t ht q hq limit hlim
    have htags2 : StoreState.tagRowsOf (s.add now content conf emb tags).2 s.nextId
        = dedupLower tags := by
      show (StoreState.insertTagsLower _ s.nextId tags).tagRowsOf s.nextId = dedupLower tags
      rw [tagRowsOf_insertTagsLower, hfresh]
      rfl
    have hmemlow : lowerStr q ∈
        StoreState.tagRowsOf (s.add now content conf emb tags).2 s.nextId := by
      rw [htags2, hq]
      exact (mem_dedupFrom _ _ _).2 (Or.inr (List.mem_map_of_mem _ ht))
    have htagrow : (s.nextId, lowerStr q) ∈ (s.add now content conf emb tags).2.tagRows :=
      (mem_tagRowsOf_iff _ s.nextId (lowerStr q)).2 hmemlow
    have hrowmem : (⟨s.nextId, content, conf, MemoryStore.serialize_embedding emb,
        now, now, none, 0⟩ : MemRow) ∈ (s.add now content conf emb tags).2.memories := by
      show _ ∈ (StoreState.insertTagsLower _ s.nextId tags).memories
      rw [insertTagsLower_memories]
      simp
    exact mem_get_by_tag (s.add now content conf emb tags).2
      ⟨s.nextId, content, conf, MemoryStore.serialize_embedding emb, now, now, none, 0⟩
      q limit hrowmem htagrow hlim

theorem C7_witness :
    (StoreState.empty.add 0 "c" (1/2) [] ["Test"]).2.get 1 =
      some ⟨1, "c", 1/2, sortTags (dedupLower ["Test"]), 0, 0, none, 0⟩ ∧
    ∃ mm ∈ (StoreState.empty.add 0 "c" (1/2) [] ["Test"]).2.get_by_tag "test" 1,
      mm.id = 1 := by
  obtain ⟨_, h2, h3⟩ :=
    C7_add_get_spec StoreState.empty 0 "c" (1/2) [] ["Test"] (by decide)
  exact ⟨h2, h3 "Test" (by decide) "test" (by decide) 1 (by decide)⟩

/-! ## Mixed/tag-word context mode (src/rust/src/cli/context.rs,
run_context, mode "tags") -/

/-- A search result as in src/rust/src/types.rs: a memory plus an f64
    score, the score modelled over the reals. -/
structure SearchResult where
  memory : Memory
  score : ℝ

/-- Character-wise lower casing of a character list. -/
def lowerChars (l : List Char) : List Char := l.map Char.toLower

/-- Whether the second list is a prefix of the first. -/
def startsWith : List Char → List Char → Bool
  | _, [] => true
  | [], _ :: _ => false
  | a :: hay, b :: pre => a == b && startsWith hay pre

/-- str::contains with a string pattern: the needle occurs as a
    contiguous substring of the haystack. -/
def containsSub (needle : List Char) : List Char → Bool
  | [] => needle.isEmpty
  | c :: rest => startsWith (c :: rest) needle || containsSub needle rest

/-- The tag-word match of run_context: some whitespace token of the
    prompt, lower-cased, contains the lower-cased tag as a substring
    (tag contained in token, not the reverse). -/
def tagMatches (prompt : String) (tag : String) : Bool :=
  (splitWhitespace prompt.toList).any fun w =>
    containsSub (lowerChars tag.toList) (lowerChars w)

/-- Descending order on tag counts for get_all_tags. -/
def byCountDesc (a b : String × ℕ) : Prop := b.2 ≤ a.2

instance : DecidableRel byCountDesc := fun a b => Nat.decLe b.2 a.2

/-- MemoryStore::get_all_tags: SELECT tag, COUNT(*) GROUP BY tag
    ORDER BY count DESC (ties in an implementation-defined but
    deterministic order, modelled by a stable sort over the distinct
    tags in first-occurrence order). -/
def allTags (s : StoreState) : List (String × ℕ) :=
  ((dedupFirst (s.tagRows.map (·.2))).map fun t =>
    (t, (s.tagRows.filter fun r => r.2 = t).length)).insertionSort byCountDesc

/-- The extend loop of run_context: concatenate recall_by_tag results
    over the matching tags, in order. -/
def concatMapTags (s : StoreState) (limit : ℕ) : List String → List Memory
  | [] => []
  | t :: rest => s.get_by_tag t limit ++ concatMapTags s limit rest

/-- The "tags" arm of run_context: match every known tag against the
    prompt words, concatenate the per-tag results, truncate to the
    limit, and attach score 1.0 to each entry. -/
noncomputable def run_context_tags (s : StoreState) (prompt : String) (limit : ℕ) :
    List SearchResult :=
  let matching := ((allTags s).filter fun tc => tagMatches prompt tc.1).map (·.1)
  if matching.isEmpty then []
  else ((concatMapTags s limit matching).take limit).map fun m => ⟨m, 1⟩

lemma mem_concatMapTags (s : StoreState) (limit : ℕ) (m : Memory) :
    ∀ l : List String, m ∈ concatMapTags s limit l ↔ ∃ t ∈ l, m ∈ s.get_by_tag t limit := by
  intro l
  induction l with
  | nil => simp [concatMapTags]
  | cons t rest ih =>
    simp only [concatMapTags, List.mem_append, ih, List.mem_cons]
    constructor
    · rintro (h | ⟨u, hu, hm⟩)
      · exact ⟨t, Or.inl rfl, h⟩
      · exact ⟨u, Or.inr hu, hm⟩
    · rintro ⟨u, hu | hu, hm⟩
      · rw [hu] at hm
        exact Or.inl hm
      · exact Or.inr ⟨u, hu, hm⟩

/-- Concrete store for the C4 counterexample: one memory carrying the
    two tags "rust" and "us", both of which are substrings of the
    prompt token "rust". -/
def ctxStore : StoreState := (StoreState.empty.add 0 "x" 1 [] ["rust", "us"]).2

/-- C4 counterexample: both known tags match the prompt "rust", the
    single memory is returned once per matching tag, and the result is
    NOT deduplicated: the same memory id appears twice. -/
theorem C4_counterexample :
    ((run_context_tags ctxStore "rust" 2).map fun r => r.memory.id) = [1, 1] ∧
    ¬ ((run_context_tags ctxStore "rust" 2).map fun r => r.memory.id).Nodup := by
  refine ⟨by decide, by decide⟩

/-- C4 (amended): in tag-word mode the prompt is split into whitespace
    tokens and a known tag matches iff its lower-cased form is a
    substring of some lower-cased token; the returned list concatenates
    the per-tag results over all matching tags WITHOUT deduplication (a
    memory carrying several matching tags appears once per tag), is
    truncated to the limit, every entry carries score exactly 1.0 and
    stems from a matching known tag, and no results are returned when
    no tag matches. -/
theorem C4_context_tags_spec (s : StoreState) (prompt : String) (limit : ℕ) :
    (run_context_tags s prompt limit).length ≤ limit ∧
    (∀ r ∈ run_context_tags s prompt limit, r.score = 1) ∧
    (∀ r ∈ run_context_tags s prompt limit, ∃ t,
      tagMatches prompt t = true ∧ (∃ c, (t, c) ∈ allTags s) ∧
      r.memory ∈ s.get_by_tag t limit) ∧
    ((∀ tc ∈ allTags s, tagMatches prompt tc.1 = false) →
      run_context_tags s prompt limit = []) := by
  refine ⟨?_, ?_, ?_, ?_⟩
  · unfold run_context_tags
    dsimp only
    split_ifs
    · simp
    · rw [List.length_map]
      exact List.length_take_le _ _
  · intro r hr
    unfold run_context_tags at hr
    dsimp only at hr
    split_ifs at hr
    · simp at hr
    · obtain ⟨m, _, rfl⟩ := List.mem_map.1 hr
      rfl
  · intro r hr
    unfold run_context_tags at hr
    dsimp only at hr
    split_ifs at hr
    · simp at hr
    · obtain ⟨m, hm, rfl⟩ := List.mem_map.1 hr
      have hm2 : m ∈ concatMapTags s limit
          (((allTags s).filter fun tc => tagMatches prompt tc.1).map (·.1)) :=
        List.mem_of_mem_take hm
      obtain ⟨t, ht, hmem⟩ := (mem_concatMapTags s limit m _).1 hm2
      obtain ⟨tc, htc, rfl⟩ := List.mem_map.1 ht
      have := List.mem_filter.1 htc
      exact ⟨tc.1, this.2, ⟨tc.2, this.1⟩, hmem⟩
  · intro hno
    unfold run_context_tags
    dsimp only
    have hempty : ((allTags s).filter fun tc => tagMatches prompt tc.1) = [] := by
      rw [List.filter_eq_nil_iff]
      intro tc htc
      simp [hno tc htc]
    rw [hempty]
    rfl

theorem C4_witness :
    (run_context_tags ctxStore "rust" 2).length ≤ 2 :=
  (C4_context_tags_spec ctxStore "rust" 2).1

/-! ## Semantic recall (src/rust/src/memory.rs, Memories::recall)

recall takes the decoded store contents (the output of
get_all_with_embeddings) and the active provider's embedding of the
query.  Rust's sort_by with the comparator
b.score.partial_cmp(&a.score).unwrap_or(Equal) is a stable descending
sort by score; over the reals partial_cmp is total, so it is modelled
by a stable insertion sort under the relation "score at least". -/

/-- The comparator of Memories::recall: a sorts no later than b when
    b.score <= a.score (descending by score). -/
def recallRel (a b : SearchResult) : Prop := b.score ≤ a.score

noncomputable instance : DecidableRel recallRel :=
  fun a b => inferInstanceAs (Decidable (b.score ≤ a.score))

instance : IsTotal SearchResult recallRel := ⟨fun a b => le_total b.score a.score⟩

instance : IsTrans SearchResult recallRel :=
  ⟨fun _ _ _ h1 h2 => le_trans h2 h1⟩

/-- Memories::recall: score every stored memory by cosine similarity
    against the embedded query, sort descending by score (stable), and
    keep the first limit results. -/
noncomputable def Memories.recall (embed : String → List ℝ)
    (all : List (Memory × List ℝ)) (query : String) (limit : ℕ) : List SearchResult :=
  ((all.map fun p => SearchResult.mk p.1 (cosine_similarity (embed query) p.2)).insertionSort
    recallRel).take limit

lemma filter_orderedInsert (c : ℝ) (x : SearchResult) (l : List SearchResult) :
    (List.orderedInsert recallRel x l).filter (fun r => r.score = c)
      = if x.score = c then x :: l.filter (fun r => r.score = c)
        else l.filter (fun r => r.score = c) := by
  have hl : l.filter (fun r => r.score = c)
      = (l.takeWhile fun b => decide ¬recallRel x b).filter (fun r => r.score = c)
        ++ (l.dropWhile fun b => decide ¬recallRel x b).filter (fun r => r.score = c) := by
    rw [← List.filter_append, List.takeWhile_append_dropWhile]
  rw [List.orderedInsert_eq_take_drop, List.filter_append]
  by_cases hc : x.score = c
  · rw [if_pos hc]
    have htake : (l.takeWhile fun b => decide ¬recallRel x b).filter
        (fun r => r.score = c) = [] := by
      rw [List.filter_eq_nil_iff]
      intro a ha
      have h1 := List.mem_takeWhile_imp ha
      simp only [decide_eq_true_eq] at h1 ⊢
      intro hac
      exact h1 (le_of_eq (by rw [hac, hc]))
    rw [htake, List.filter_cons_of_pos (by simp [hc]), hl, htake]
    simp
  · rw [if_neg hc, List.filter_cons_of_neg (by simp [hc]), hl]

lemma filter_insertionSort (c : ℝ) (l : List SearchResult) :
    (l.insertionSort recallRel).filter (fun r => r.score = c)
      = l.filter (fun r => r.score = c) := by
  induction l with
  | nil => rfl
  | cons x l ih =>
    show (List.orderedInsert recallRel x (l.insertionSort recallRel)).filter
        (fun r => r.score = c) = _
    rw [filter_orderedInsert, ih]
    by_cases hc : x.score = c
    · rw [if_pos hc, List.filter_cons_of_pos (by simp [hc])]
    · rw [if_neg hc, List.filter_cons_of_neg (by simp [hc])]

/-- C8: recall scores every stored memory by cosine similarity between
    the embedded query and the stored embedding, sorts descending by
    score with ties keeping the underlying storage order (the sorted
    list is a permutation of the scored list, is sorted under the
    descending relation, and for every score value the entries with
    that score appear exactly in their original order), and returns
    exactly the first limit results: its length is min limit N. -/
theorem C8_recall_spec (embed : String → List ℝ) (all : List (Memory × List ℝ))
    (query : String) (limit : ℕ) :
    (Memories.recall embed all query limit).length = min limit all.length ∧
    ∃ sorted : List SearchResult,
      Memories.recall embed all query limit = sorted.take limit ∧
      sorted.Perm (all.map fun p =>
        SearchResult.mk p.1 (cosine_similarity (embed query) p.2)) ∧
      sorted.Sorted recallRel ∧
      ∀ c : ℝ, sorted.filter (fun r => r.score = c)
        = (all.map fun p =>
            SearchResult.mk p.1 (cosine_similarity (embed query) p.2)).filter
              (fun r => r.score = c) := by
  constructor
  · unfold Memories.recall
    rw [List.length_take, (List.perm_insertionSort recallRel _).length_eq,
      List.length_map]
  · refine ⟨(all.map fun p =>
        SearchResult.mk p.1 (cosine_similarity (embed query) p.2)).insertionSort recallRel,
      ?_, List.perm_insertionSort recallRel _, List.sorted_insertionSort recallRel _,
      fun c => filter_insertionSort c _⟩
    rfl

/-- A concrete embedder and store row used by the C8 witness. -/
def embedOne : String → List ℝ := fun _ => [1]

/-- A concrete memory record used by witnesses. -/
def memA : Memory := ⟨1, "a", 1, [], 0, 0, none, 0⟩

theorem C8_witness :
    (Memories.recall embedOne [(memA, [1])] "q" 2).length = min 2 1 :=
  (C8_recall_spec embedOne [(memA, [1])] "q" 2).1

/-! ## Model-version tracker (spec section 4.4)

Memories::reindex, get_stored_model and check_model_mismatch are not
part of the sources under src/ (only their CLI caller run_reindex in
src/rust/src/cli/memory.rs is), so they are modelled from the spec. -/

/-- One stored memory as the tracker sees it: id, content and its
    current embedding, over an abstract embedding type E. -/
structure TrackerRow (E : Type) where
  id : ℕ
  content : String
  embedding : E
  deriving DecidableEq

/-- The store as the tracker sees it: the rows plus the stored-model
    marker. -/
structure TrackerState (E : Type) where
  rows : List (TrackerRow E)
  marker : Option String
  deriving DecidableEq

/-- Modelled from the spec: Memories::reindex (absent from src/, only
    its caller run_reindex is present) re-embeds every memory's content
    with the current provider, overwrites its embedding, updates the
    marker to the current identity and returns the count of memories
    successfully re-embedded; a per-item failure is skipped keeping the
    previous embedding and is not counted, and does not abort the
    operation. -/
def reindex {E : Type} (embed : String → Option E) (current : String)
    (s : TrackerState E) : ℕ × TrackerState E :=
  let step := s.rows.map fun r =>
    match embed r.content with
    | some e => ((1 : ℕ), { r with embedding := e })
    | none => ((0 : ℕ), r)
  ((step.map (·.1)).sum, ⟨step.map (·.2), some current⟩)

/-- Modelled from the spec: check_mismatch (absent from src/) returns
    the stored marker when it differs from the currently configured
    provider identity, else none. -/
def check_mismatch {E : Type} (current : String) (s : TrackerState E) : Option String :=
  match s.marker with
  | some m => if m = current then none else some m
  | none => none

lemma reindex_count {E : Type} (embed : String → Option E) (rows : List (TrackerRow E)) :
    (((rows.map fun r =>
        match embed r.content with
        | some e => ((1 : ℕ), { r with embedding := e })
        | none => ((0 : ℕ), r)).map (·.1)).sum)
      = (rows.filter fun r => (embed r.content).isSome).length := by
  induction rows with
  | nil => rfl
  | cons r rows ih =>
    cases h : embed r.content with
    | none =>
      simp only [List.map_cons, h, List.sum_cons]
      rw [List.filter_cons_of_neg (by simp [h]), ih]
      simp
    | some e =>
      simp only [List.map_cons, h, List.sum_cons]
      rw [List.filter_cons_of_pos (by simp [h]), ih]
      simp [Nat.add_comm]

/-- C6: after reindex every successfully re-embedded memory's embedding
    equals what the current provider produces for its content (when the
    provider succeeds on every stored content, this holds for every
    memory), the returned count is the number of successfully
    re-embedded memories (per-item failures are skipped keeping the row
    unchanged, not aborted on), and the subsequent mismatch check
    against the current configuration reports no mismatch. -/
theorem C6_reindex_spec {E : Type} (embed : String → Option E) (current : String)
    (s : TrackerState E) :
    (reindex embed current s).1
      = (s.rows.filter fun r => (embed r.content).isSome).length ∧
    check_mismatch current (reindex embed current s).2 = none ∧
    (∀ r ∈ s.rows, embed r.content = none → r ∈ (reindex embed current s).2.rows) ∧
    ((∀ r ∈ s.rows, (embed r.content).isSome = true) →
      ∀ r2 ∈ (reindex embed current s).2.rows, embed r2.content = some r2.embedding) := by
  refine ⟨reindex_count embed s.rows, ?_, ?_, ?_⟩
  · unfold check_mismatch reindex
    simp
  · intro r hr h
    unfold reindex
    dsimp only
    rw [List.map_map]
    refine List.mem_map.2 ⟨r, hr, ?_⟩
    simp [h]
  · intro hall r2 hr2
    unfold reindex at hr2
    dsimp only at hr2
    rw [List.map_map] at hr2
    obtain ⟨r, hr, hr2eq⟩ := List.mem_map.1 hr2
    obtain ⟨e, he⟩ := Option.isSome_iff_exists.1 (hall r hr)
    rw [← hr2eq]
    simp [Function.comp, he]

/-- A concrete embedder over E = naturals for the C6 witness. -/
def embedZero : String → Option ℕ := fun _ => some 0

/-- A concrete one-row tracker state for the C6 witness. -/
def trackerOne : TrackerState ℕ := ⟨[⟨1, "a", 7⟩], none⟩

theorem C6_witness :
    (reindex embedZero "m" trackerOne).1 = 1 ∧
    check_mismatch "m" (reindex embedZero "m" trackerOne).2 = none ∧
    ∀ r2 ∈ (reindex embedZero "m" trackerOne).2.rows,
      embedZero r2.content = some r2.embedding := by
  obtain ⟨h1, h2, _, h4⟩ := C6_reindex_spec embedZero "m" trackerOne
  refine ⟨?_, h2, h4 (by decide)⟩
  rw [h1]
  decide

end Roots
